import Mathlib

/-!
# Verification of the ebisu recall-probability library

Shallow embedding of `src/ebisu/ebisu.py` over the reals, together with
theorems settling the specification's claims about it.

Conventions of the embedding:
* Python floats become real numbers; float arithmetic is modelled exactly.
* `scipy.special.gammaln x` (for the positive arguments the library feeds it)
  becomes `Real.log (Real.Gamma x)`; `scipy.special.betaln p q` becomes the
  log-beta combination of `gammaln` used by the specification's contract.
* The two external numeric collaborators (`scipy.optimize.least_squares` and
  `scipy.optimize.root_scalar`) are out of the repository: following the
  specification they are modelled by their contracts, as explicit parameters
  (the fitted pair, respectively an exact root of the objective).
* The `while` loops of `modelToPercentileDecay`'s bracket scan are embedded
  as fuelled recursive functions; running out of fuel returns `none`, so a
  `some` result witnesses termination of the Python loop.
-/

namespace Ebisu

open Real

/-- The `(alpha, beta, t)` triple of the Python code: a Beta(alpha, beta)
prior on recall probability at elapsed time `t`. -/
structure BetaModel where
  alpha : ℝ
  beta : ℝ
  t : ℝ

/-- The five-component GB1 tuple `(a, b, p, q, t)` built inside
`updateRecall` and consumed by `gb1ToBeta`. -/
structure GB1Model where
  a : ℝ
  b : ℝ
  p : ℝ
  q : ℝ
  t : ℝ

/-- `scipy.special.gammaln`: log of the Gamma function.  The library only
evaluates it at positive arguments, where `Real.Gamma` is positive, so
`Real.log (Real.Gamma x)` is the faithful embedding. -/
noncomputable def gammaln (x : ℝ) : ℝ := Real.log (Real.Gamma x)

/-- `scipy.special.betaln`: log of the Beta function,
`logGamma p + logGamma q - logGamma (p+q)` exactly as in the spec's contract
for the special-function layer. -/
noncomputable def betaln (p q : ℝ) : ℝ := gammaln p + gammaln q - gammaln (p + q)

/-- `cacheIndependent(prior)`: `gammaln(alpha + beta) - gammaln(alpha)`
(source lines 30–37). -/
noncomputable def cacheIndependent (prior : BetaModel) : ℝ :=
  gammaln (prior.alpha + prior.beta) - gammaln prior.alpha

/-- `predictRecall(prior, tnow, exact=False, independent=None)`
(source lines 3–27).  The Python guard `if not independent:` tests
*truthiness*: it recomputes the independent term when the argument is
`None` **or** equal to `0.0`; the `Option ℝ` match below reproduces that.
`dt = tnow / t`; the log-domain result is
`gammaln(alpha+dt) - gammaln(alpha+beta+dt) + independent`, exponentiated
iff `exact` is set. -/
noncomputable def predictRecall (prior : BetaModel) (tnow : ℝ) (exact : Bool)
    (independent : Option ℝ) : ℝ :=
  let ind : ℝ :=
    match independent with
    | none => gammaln (prior.alpha + prior.beta) - gammaln prior.alpha
    | some x =>
        if x = 0 then gammaln (prior.alpha + prior.beta) - gammaln prior.alpha
        else x
  let dt := tnow / prior.t
  let ret := gammaln (prior.alpha + dt) - gammaln (prior.alpha + prior.beta + dt) + ind
  if exact then Real.exp ret else ret

/-- `gb1ToBeta(gb1)` (source lines 75–80): `(gb1[2], gb1[3], gb1[4] * gb1[0])`. -/
noncomputable def gb1ToBeta (gb1 : GB1Model) : BetaModel :=
  ⟨gb1.p, gb1.q, gb1.t * gb1.a⟩

/-- `updateRecall(prior, result, tnow)` (source lines 38–72).
On success (`result` truthy) the code forms the GB1 tuple
`(1/dt, 1, alpha+dt, beta, tnow)` with `dt = tnow/t` and converts it with
`gb1ToBeta`.  On failure it runs the external bounded least-squares solver
and forms `(1/newDelta, 1, alpha, newBeta, tnow)`; the solver is outside
this repository, so its output pair `(newBeta, newDelta)` is supplied as
the explicit parameter `fit` (unused on the success branch). -/
noncomputable def updateRecall (prior : BetaModel) (result : Bool) (tnow : ℝ)
    (fit : ℝ × ℝ) : BetaModel :=
  let dt := tnow / prior.t
  if result then
    gb1ToBeta ⟨1 / dt, 1, prior.alpha + dt, prior.beta, tnow⟩
  else
    gb1ToBeta ⟨1 / fit.2, 1, prior.alpha, fit.1, tnow⟩

/-- `defaultModel(t, alpha=3.0, beta=None)` (source lines 159–172): returns
`(alpha, beta or alpha, t)`.  Python's `beta or alpha` yields `alpha` when
`beta` is `None` *or* when `beta == 0.0` (both are falsy), and `beta`
otherwise; the match below reproduces exactly that truthiness test. -/
noncomputable def defaultModel (t alpha : ℝ) (beta : Option ℝ) : BetaModel :=
  ⟨alpha,
   match beta with
   | none => alpha
   | some b => if b = 0 then alpha else b,
   t⟩

/-- The inner objective `f(lndelta)` of `modelToPercentileDecay`
(source lines 129–131):
`betaln(alpha + exp lndelta, beta) - betaln(alpha, beta) - log percentile`. -/
noncomputable def decayObjective (alpha beta percentile : ℝ) (lndelta : ℝ) : ℝ :=
  betaln (alpha + Real.exp lndelta) beta - betaln alpha beta - Real.log percentile

/-- First `while` loop of the bracket scan (source lines 139–144): while
`f(blow) > 0` and `f(bhigh) > 0`, slide the window up by the fixed width 6
(`blow := bhigh; bhigh := bhigh + 6`).  The loop is embedded with fuel; a
`some` result witnesses that the Python loop exits.  The source caches
`flow`/`fhigh` rather than re-evaluating `f`; since `f` is pure the cached
values coincide with `f blow`/`f bhigh`, which the embedding recomputes. -/
noncomputable def slideUp (f : ℝ → ℝ) : ℕ → ℝ → ℝ → Option (ℝ × ℝ)
  | 0, _, _ => none
  | fuel + 1, blow, bhigh =>
      if 0 < f blow ∧ 0 < f bhigh then slideUp f fuel bhigh (bhigh + 6)
      else some (blow, bhigh)

/-- Second `while` loop of the bracket scan (source lines 145–150): while
`f(blow) < 0` and `f(bhigh) < 0`, slide the window down by the fixed width 6
(`bhigh := blow; blow := blow - 6`). -/
noncomputable def slideDown (f : ℝ → ℝ) : ℕ → ℝ → ℝ → Option (ℝ × ℝ)
  | 0, _, _ => none
  | fuel + 1, blow, bhigh =>
      if f blow < 0 ∧ f bhigh < 0 then slideDown f fuel (blow - 6) blow
      else some (blow, bhigh)

/-- The whole bracket scan of `modelToPercentileDecay` (source lines
133–150): start from the window `[-3, 3]`, run the slide-up loop, then the
slide-down loop. -/
noncomputable def bracketScan (f : ℝ → ℝ) (fuel : ℕ) : Option (ℝ × ℝ) :=
  match slideUp f fuel (-3) 3 with
  | none => none
  | some (blow, bhigh) => slideDown f fuel blow bhigh

/-- The `assert flow > 0 and fhigh < 0` guard before the root solve
(source line 152). -/
def bracketAssert (f : ℝ → ℝ) (blow bhigh : ℝ) : Prop :=
  0 < f blow ∧ f bhigh < 0

/-- The value `modelToPercentileDecay` returns once the external root
solver has produced the root `lndelta*`: `exp(lndelta*) * t0`
(source lines 154–156). -/
noncomputable def modelToPercentileDecayAt (model : BetaModel) (root : ℝ) : ℝ :=
  Real.exp root * model.t

/-- Modelled from the spec: `scipy.optimize.root_scalar` is an external
collaborator specified only by its contract (§6: "bracketed scalar root
solver … returns root"); `sol.root` is therefore characterised as an exact
root of the objective `f` of `modelToPercentileDecay`. -/
def decayRoot (model : BetaModel) (percentile root : ℝ) : Prop :=
  decayObjective model.alpha model.beta percentile root = 0

/-- Modelled from the spec: the error taxonomy of §7; the source itself
defines no error type. -/
inductive EbisuError where
  | invalidArgument
  deriving DecidableEq

/-- `predictRecall` viewed as a fallible operation.  The Python source
contains no argument check and no `raise` statement on any path, so the
faithful embedding is total: it always returns `Except.ok` of the computed
value. -/
noncomputable def predictRecallE (prior : BetaModel) (tnow : ℝ) (exact : Bool)
    (independent : Option ℝ) : Except EbisuError ℝ :=
  Except.ok (predictRecall prior tnow exact independent)

/-- `updateRecall` viewed as a fallible operation; as with
`predictRecallE`, the source validates nothing, so every argument tuple
produces `Except.ok`. -/
noncomputable def updateRecallE (prior : BetaModel) (result : Bool) (tnow : ℝ)
    (fit : ℝ × ℝ) : Except EbisuError BetaModel :=
  Except.ok (updateRecall prior result tnow fit)

/-- Modelled from the spec (§7, claim C2): every top-level operation
rejects non-positive `alpha`, `beta`, `t` or `tnow` with an
`InvalidArgument` error before any numeric work.  Stated here for
`predictRecall`; the claim quantifies over all top-level operations, so
refuting this conjunct refutes the claim. -/
def rejectsInvalidArguments : Prop :=
  ∀ (prior : BetaModel) (tnow : ℝ) (exact : Bool) (independent : Option ℝ),
    ¬(0 < prior.alpha ∧ 0 < prior.beta ∧ 0 < prior.t ∧ 0 < tnow) →
      predictRecallE prior tnow exact independent = Except.error .invalidArgument

/-! ## Analytic helper lemmas about `gammaln`

All of them are consequences of the convexity of `log ∘ Gamma` on `(0, ∞)`
(`Real.convexOn_log_Gamma`). -/

/-- The increments of `gammaln` over a fixed step `b > 0` grow with the base
point: `gammaln (x+b) - gammaln x ≤ gammaln (y+b) - gammaln y` for
`0 < x ≤ y`.  This is the convexity of `log ∘ Gamma` expressed through the
four points `x ≤ x+b, y ≤ y+b`. -/
theorem gammaln_increment_mono {b x y : ℝ} (hb : 0 < b) (hx : 0 < x)
    (hxy : x ≤ y) : gammaln (x + b) - gammaln x ≤ gammaln (y + b) - gammaln y := by
  rcases eq_or_lt_of_le hxy with rfl | hlt
  · exact le_refl _
  · have hD : 0 < y - x + b := by linarith
    have hcvx := Real.convexOn_log_Gamma
    have hu : x ∈ Set.Ioi (0 : ℝ) := hx
    have hv : y + b ∈ Set.Ioi (0 : ℝ) := by
      have : (0 : ℝ) < y + b := by linarith
      exact this
    have hl1 : (0 : ℝ) ≤ (y - x) / (y - x + b) := by
      apply div_nonneg <;> linarith
    have hl2 : (0 : ℝ) ≤ b / (y - x + b) := by
      apply div_nonneg <;> linarith
    have hsum : (y - x) / (y - x + b) + b / (y - x + b) = 1 := by
      field_simp
    have h1 := hcvx.2 hu hv hl1 hl2 hsum
    have h2 := hcvx.2 hu hv hl2 hl1 (by linarith)
    simp only [smul_eq_mul, Function.comp_apply] at h1 h2
    have e1 : (y - x) / (y - x + b) * x + b / (y - x + b) * (y + b) = x + b := by
      field_simp
      ring
    have e2 : b / (y - x + b) * x + (y - x) / (y - x + b) * (y + b) = y := by
      field_simp
      ring
    rw [e1] at h1
    rw [e2] at h2
    have h3 := add_le_add h1 h2
    have h4 : (y - x) / (y - x + b) * Real.log (Real.Gamma x)
          + b / (y - x + b) * Real.log (Real.Gamma (y + b))
          + (b / (y - x + b) * Real.log (Real.Gamma x)
          + (y - x) / (y - x + b) * Real.log (Real.Gamma (y + b)))
        = ((y - x) / (y - x + b) + b / (y - x + b)) * Real.log (Real.Gamma x)
          + ((y - x) / (y - x + b) + b / (y - x + b)) * Real.log (Real.Gamma (y + b)) := by
      ring
    rw [h4, hsum, one_mul, one_mul] at h3
    simp only [gammaln]
    linarith

/-- `gammaln (w) - gammaln (w - 1) = log (w - 1)` for `w > 1`: the
log-domain form of `Γ(w) = (w-1)·Γ(w-1)`. -/
theorem gammaln_sub_one {w : ℝ} (hw : 1 < w) :
    gammaln w - gammaln (w - 1) = Real.log (w - 1) := by
  have hw1 : (0 : ℝ) < w - 1 := by linarith
  have h := Real.Gamma_add_one (ne_of_gt hw1)
  rw [sub_add_cancel] at h
  have : gammaln w = Real.log (w - 1) + gammaln (w - 1) := by
    rw [gammaln, h, Real.log_mul (ne_of_gt hw1)
      (ne_of_gt (Real.Gamma_pos_of_pos hw1))]
    rfl
  linarith

/-- Lower chord bound used for the upward bracket scan:
`b * log (w - 1) ≤ gammaln (w + b) - gammaln w` for `w > 1`, `b > 0`. -/
theorem gammaln_chord_lower {w b : ℝ} (hw : 1 < w) (hb : 0 < b) :
    b * Real.log (w - 1) ≤ gammaln (w + b) - gammaln w := by
  have hw1 : (0 : ℝ) < w - 1 := by linarith
  have hcvx := Real.convexOn_log_Gamma
  have hslope := hcvx.slope_mono_adjacent (x := w - 1) (y := w) (z := w + b)
    (Set.mem_Ioi.mpr hw1) (Set.mem_Ioi.mpr (by linarith))
    (by linarith) (by linarith)
  simp only [Function.comp_apply] at hslope
  have hden1 : w - (w - 1) = 1 := by ring
  have hden2 : w + b - w = b := by ring
  rw [hden1, hden2, div_one] at hslope
  have hnum : Real.log (Real.Gamma w) - Real.log (Real.Gamma (w - 1))
      = Real.log (w - 1) := gammaln_sub_one hw
  rw [hnum] at hslope
  have := (le_div_iff₀ hb).mp hslope
  calc b * Real.log (w - 1) = Real.log (w - 1) * b := by ring
    _ ≤ Real.log (Real.Gamma (w + b)) - Real.log (Real.Gamma w) := this
    _ = gammaln (w + b) - gammaln w := rfl

/-- Upper chord bound used for the downward bracket scan:
`gammaln (w + d) - gammaln w ≤ d * log (w + d)` for `w, d > 0`. -/
theorem gammaln_chord_upper {w d : ℝ} (hw : 0 < w) (hd : 0 < d) :
    gammaln (w + d) - gammaln w ≤ d * Real.log (w + d) := by
  have hcvx := Real.convexOn_log_Gamma
  have hslope := hcvx.slope_mono_adjacent (x := w) (y := w + d) (z := w + d + 1)
    (Set.mem_Ioi.mpr hw) (Set.mem_Ioi.mpr (by linarith))
    (by linarith) (by linarith)
  simp only [Function.comp_apply] at hslope
  have hden1 : w + d - w = d := by ring
  have hden2 : w + d + 1 - (w + d) = 1 := by ring
  rw [hden1, hden2, div_one] at hslope
  have hnum : Real.log (Real.Gamma (w + d + 1)) - Real.log (Real.Gamma (w + d))
      = Real.log (w + d) := by
    have h := gammaln_sub_one (w := w + d + 1) (by linarith)
    have he : w + d + 1 - 1 = w + d := by ring
    rw [he] at h
    exact h
  rw [hnum] at hslope
  have := (div_le_iff₀ hd).mp hslope
  calc gammaln (w + d) - gammaln w
      = Real.log (Real.Gamma (w + d)) - Real.log (Real.Gamma w) := rfl
    _ ≤ Real.log (w + d) * d := this
    _ = d * Real.log (w + d) := by ring

/-- Chord lower bound anchored at `w/2`: the increment of `gammaln` from `w`
to `w + d` is at least `d` times the slope of `gammaln` over `[w/2, w]`. -/
theorem gammaln_chord_lower_half {w d : ℝ} (hw : 0 < w) (hd : 0 < d) :
    d * ((gammaln w - gammaln (w / 2)) / (w / 2)) ≤ gammaln (w + d) - gammaln w := by
  have hw2 : (0 : ℝ) < w / 2 := by linarith
  have hcvx := Real.convexOn_log_Gamma
  have hslope := hcvx.slope_mono_adjacent (x := w / 2) (y := w) (z := w + d)
    (Set.mem_Ioi.mpr hw2) (Set.mem_Ioi.mpr (by linarith))
    (by linarith) (by linarith)
  simp only [Function.comp_apply] at hslope
  have hden1 : w - w / 2 = w / 2 := by ring
  have hden2 : w + d - w = d := by ring
  rw [hden1, hden2] at hslope
  have := (le_div_iff₀ hd).mp hslope
  calc d * ((gammaln w - gammaln (w / 2)) / (w / 2))
      = (Real.log (Real.Gamma w) - Real.log (Real.Gamma (w / 2))) / (w / 2) * d := by
        simp only [gammaln]
        ring
    _ ≤ Real.log (Real.Gamma (w + d)) - Real.log (Real.Gamma w) := this
    _ = gammaln (w + d) - gammaln w := rfl

/-- `Γ(3) = 2`, used to evaluate the embedding at concrete inputs. -/
theorem Gamma_three : Real.Gamma 3 = 2 := by
  norm_num [Real.Gamma_ofNat_eq_factorial, Nat.factorial]

/-- `Γ(4) = 6`, used to evaluate the embedding at concrete inputs. -/
theorem Gamma_four : Real.Gamma 4 = 6 := by
  norm_num [Real.Gamma_ofNat_eq_factorial, Nat.factorial]

/-- `predictRecall` with `exact=True` is the exponential of the
`exact=False` log-domain value (source line 27). -/
theorem predictRecall_exact_eq_exp (prior : BetaModel) (tnow : ℝ) (ind : Option ℝ) :
    predictRecall prior tnow true ind = Real.exp (predictRecall prior tnow false ind) := rfl

/-! ## Claim theorems -/

/-- Claim C9, counterexample: `defaultModel(10, 3.0, beta=0.0)` supplies a
non-`None` `beta`, yet the returned second component is `3.0`, not the
supplied `0.0`, because the source computes `beta or alpha` and `0.0` is
falsy in Python.  This refutes "whenever a non-None beta is supplied the
returned second component equals that beta". -/
theorem defaultModel_zero_beta_counterexample :
    defaultModel 10 3 (some 0) = ⟨3, 3, 10⟩ ∧ defaultModel 10 3 (some 0) ≠ ⟨3, 0, 10⟩ := by
  constructor
  · simp [defaultModel]
  · simp only [defaultModel, if_pos rfl]
    intro h
    have := congrArg BetaModel.beta h
    norm_num at this

/-- Claim C9 (amended): `defaultModel(t, alpha, beta)` returns
`(alpha, beta if beta is truthy (non-None and nonzero) else alpha, t)`; in
particular `defaultModel(t=10, alpha=3.0)` returns `(3.0, 3.0, 10)`, and
whenever a non-`None` **nonzero** `beta` is supplied the second component
equals that `beta`; a supplied `beta == 0.0` is replaced by `alpha`. -/
theorem defaultModel_eq (t alpha : ℝ) :
    defaultModel t alpha none = ⟨alpha, alpha, t⟩ ∧
    defaultModel t alpha (some 0) = ⟨alpha, alpha, t⟩ ∧
    ∀ b : ℝ, b ≠ 0 → defaultModel t alpha (some b) = ⟨alpha, b, t⟩ := by
  refine ⟨rfl, by simp [defaultModel], fun b hb => by simp [defaultModel, hb]⟩

/-- Witness for `defaultModel_eq` at `t = 10`, `alpha = 3`, `beta = 2`. -/
theorem defaultModel_eq_witness :
    defaultModel 10 3 none = ⟨3, 3, 10⟩ ∧ defaultModel 10 3 (some 2) = ⟨3, 2, 10⟩ :=
  ⟨(defaultModel_eq 10 3).1, (defaultModel_eq 10 3).2.2 2 (by norm_num)⟩

/-- Claim C10: on a successful quiz, `updateRecall((alpha, beta, t), True,
tnow)` returns exactly `(alpha + tnow/t, beta, t)`: only `alpha` grows, by
`dt = tnow/t`, while `beta` and the reference time `t` are unchanged
(because `gb1ToBeta` rescales `tnow` by `1/dt`, giving back `t`). -/
theorem updateRecall_success_closed_form (alpha beta t tnow : ℝ) (fit : ℝ × ℝ)
    (halpha : 0 < alpha) (hbeta : 0 < beta) (ht : 0 < t) (htnow : 0 < tnow) :
    updateRecall ⟨alpha, beta, t⟩ true tnow fit = ⟨alpha + tnow / t, beta, t⟩ := by
  have ht' : t ≠ 0 := ne_of_gt ht
  have htnow' : tnow ≠ 0 := ne_of_gt htnow
  have h : tnow * (t / tnow) = t := by
    rw [mul_comm]
    exact div_mul_cancel₀ t htnow'
  simp [updateRecall, gb1ToBeta, h]

/-- Witness for `updateRecall_success_closed_form` at `(3, 3, 10)`,
`tnow = 5`: the result is `(3.5, 3, 10)`. -/
theorem updateRecall_success_closed_form_witness :
    updateRecall ⟨3, 3, 10⟩ true 5 (0, 0) = ⟨3 + 5 / 10, 3, 10⟩ :=
  updateRecall_success_closed_form 3 3 10 5 (0, 0)
    (by norm_num) (by norm_num) (by norm_num) (by norm_num)

/-- Claim C1, counterexample: for the valid model `(3, 3, 10)` and
`tnow = 5 > 0`, the third component of `updateRecall(model, True, 5)` is
`10` — the prior's `t` — and not `tnow = 5` as the claim states:
`gb1ToBeta` multiplies `tnow` by `1/dt = t/tnow`, which cancels back to
`t`. -/
theorem updateRecall_success_t_ne_tnow :
    (updateRecall ⟨3, 3, 10⟩ true 5 (0, 0)).t = 10 ∧
    (updateRecall ⟨3, 3, 10⟩ true 5 (0, 0)).t ≠ 5 := by
  have h : (updateRecall ⟨3, 3, 10⟩ true 5 (0, 0)).t = 10 := by
    simp [updateRecall, gb1ToBeta]
    norm_num
  exact ⟨h, by rw [h]; norm_num⟩

/-- Claim C1 (amended): for every valid `BetaModel` (`alpha, beta, t > 0`)
and every `tnow > 0`, `updateRecall(model, True, tnow)` returns a
`BetaModel` whose third component equals the **prior's** `t` (not `tnow`)
and whose `alpha` and `beta` components are strictly positive. -/
theorem updateRecall_success_valid (alpha beta t tnow : ℝ) (fit : ℝ × ℝ)
    (halpha : 0 < alpha) (hbeta : 0 < beta) (ht : 0 < t) (htnow : 0 < tnow) :
    (updateRecall ⟨alpha, beta, t⟩ true tnow fit).t = t ∧
    0 < (updateRecall ⟨alpha, beta, t⟩ true tnow fit).alpha ∧
    0 < (updateRecall ⟨alpha, beta, t⟩ true tnow fit).beta := by
  have ht' : t ≠ 0 := ne_of_gt ht
  have htnow' : tnow ≠ 0 := ne_of_gt htnow
  have h : tnow * (t / tnow) = t := by
    rw [mul_comm]
    exact div_mul_cancel₀ t htnow'
  have hdt : 0 < tnow / t := div_pos htnow ht
  refine ⟨?_, ?_, ?_⟩ <;> simp [updateRecall, gb1ToBeta, h] <;> linarith

/-- Witness for `updateRecall_success_valid` at `(3, 3, 10)`, `tnow = 5`. -/
theorem updateRecall_success_valid_witness :
    (updateRecall ⟨3, 3, 10⟩ true 5 (0, 0)).t = 10 ∧
    0 < (updateRecall ⟨3, 3, 10⟩ true 5 (0, 0)).alpha ∧
    0 < (updateRecall ⟨3, 3, 10⟩ true 5 (0, 0)).beta :=
  updateRecall_success_valid 3 3 10 5 (0, 0)
    (by norm_num) (by norm_num) (by norm_num) (by norm_num)

/-- Claim C2, counterexample: the top-level operations do **not** reject
invalid arguments.  `predictRecall((3,3,10), tnow=-5)` — an invalid,
negative elapsed time — is not rejected: the source contains no validation
and simply computes a value, so `rejectsInvalidArguments` is false. -/
theorem not_rejectsInvalidArguments : ¬rejectsInvalidArguments := by
  intro h
  have hbad := h ⟨3, 3, 10⟩ (-5) true none
    (fun hc => absurd hc.2.2.2 (by norm_num))
  simp [predictRecallE] at hbad

/-- Claim C2 (amended): no top-level operation validates its arguments;
`predictRecall` and `updateRecall` always return an ordinary computed
value (`Except.ok`), for every argument tuple, and in particular the
invalid call `predictRecall((3,3,10), tnow=-5, exact=False)` performs the
numeric computation on the invalid `tnow`, returning
`gammaln(2.5) - gammaln(5.5) + (gammaln 6 - gammaln 3)`. -/
theorem topLevel_no_validation :
    (∀ (prior : BetaModel) (tnow : ℝ) (exact : Bool) (ind : Option ℝ),
      predictRecallE prior tnow exact ind
        = Except.ok (predictRecall prior tnow exact ind)) ∧
    (∀ (prior : BetaModel) (result : Bool) (tnow : ℝ) (fit : ℝ × ℝ),
      updateRecallE prior result tnow fit
        = Except.ok (updateRecall prior result tnow fit)) ∧
    predictRecall ⟨3, 3, 10⟩ (-5) false none
      = gammaln (5 / 2) - gammaln (11 / 2) + (gammaln (3 + 3) - gammaln 3) := by
  refine ⟨fun _ _ _ _ => rfl, fun _ _ _ _ => rfl, ?_⟩
  norm_num [predictRecall]

/-- Claim C5: supplying `independent = cacheIndependent(model)` never
changes the result of `predictRecall`.  (When the cached value is nonzero
it is used directly and equals the recomputed term; when it is `0.0` the
Python truthiness test `if not independent` recomputes the very same
term.) -/
theorem predictRecall_cacheIndependent_eq (prior : BetaModel) (tnow : ℝ) (exact : Bool)
    (halpha : 0 < prior.alpha) (hbeta : 0 < prior.beta)
    (ht : 0 < prior.t) (htnow : 0 < tnow) :
    predictRecall prior tnow exact (some (cacheIndependent prior)) =
      predictRecall prior tnow exact none := by
  simp only [predictRecall, cacheIndependent, ite_self]

/-- Witness for `predictRecall_cacheIndependent_eq` at `(1, 1, 1)`,
`tnow = 1`, `exact=True`. -/
theorem predictRecall_cacheIndependent_eq_witness :
    predictRecall ⟨1, 1, 1⟩ 1 true (some (cacheIndependent ⟨1, 1, 1⟩)) =
      predictRecall ⟨1, 1, 1⟩ 1 true none :=
  predictRecall_cacheIndependent_eq ⟨1, 1, 1⟩ 1 true
    (by exact one_pos) (by exact one_pos) (by exact one_pos) one_pos

/-- Claim C7: the ordering of two `exact=False` (log-domain) results
matches the ordering of the same two `exact=True` results: if
`predictRecall(prior1, tnow1, exact=True) < predictRecall(prior2, tnow2,
exact=True)` then the `exact=False` values compare the same way, because
`exact=True` is the exponential of `exact=False` and `exp` is strictly
monotone. -/
theorem predictRecall_log_order_matches_exact
    (prior1 prior2 : BetaModel) (tnow1 tnow2 : ℝ)
    (h1a : 0 < prior1.alpha) (h1b : 0 < prior1.beta) (h1t : 0 < prior1.t)
    (h2a : 0 < prior2.alpha) (h2b : 0 < prior2.beta) (h2t : 0 < prior2.t)
    (ht1 : 0 < tnow1) (ht2 : 0 < tnow2)
    (h : predictRecall prior1 tnow1 true none < predictRecall prior2 tnow2 true none) :
    predictRecall prior1 tnow1 false none < predictRecall prior2 tnow2 false none := by
  rw [predictRecall_exact_eq_exp, predictRecall_exact_eq_exp] at h
  exact Real.exp_lt_exp.mp h

/-- Witness for `predictRecall_log_order_matches_exact`: with the model
`(1, 1, 1)`, the exact recall at `tnow = 2` (namely `1/3`) is below the
exact recall at `tnow = 1` (namely `1/2`), so the log-domain values
compare the same way. -/
theorem predictRecall_log_order_matches_exact_witness :
    predictRecall ⟨1, 1, 1⟩ 2 false none < predictRecall ⟨1, 1, 1⟩ 1 false none := by
  have h46 : Real.log 4 < Real.log 6 := Real.log_lt_log (by norm_num) (by norm_num)
  have h4 : Real.log 4 = 2 * Real.log 2 := by
    rw [show (4 : ℝ) = 2 ^ 2 by norm_num, Real.log_pow]
    push_cast
    ring
  have hlt : predictRecall ⟨1, 1, 1⟩ 2 true none < predictRecall ⟨1, 1, 1⟩ 1 true none := by
    norm_num [predictRecall]
    norm_num [gammaln, Real.Gamma_one, Real.Gamma_two, Real.Gamma_ofNat_eq_factorial,
      Nat.factorial]
    linarith
  exact predictRecall_log_order_matches_exact ⟨1, 1, 1⟩ ⟨1, 1, 1⟩ 2 1
    one_pos one_pos one_pos one_pos one_pos one_pos
    (by norm_num) (by norm_num) hlt

/-- Claim C8: for every valid model and `tnow > 0`,
`predictRecall(model, tnow, exact=True)` lies in `[0, 1]`.  Positivity is
the positivity of `exp`; the upper bound is the log-domain value being
`≤ 0`, which is the convexity (increasing increments) of `log Γ`. -/
theorem predictRecall_exact_mem_unit_interval (prior : BetaModel) (tnow : ℝ)
    (ha : 0 < prior.alpha) (hb : 0 < prior.beta)
    (ht : 0 < prior.t) (htnow : 0 < tnow) :
    0 ≤ predictRecall prior tnow true none ∧ predictRecall prior tnow true none ≤ 1 := by
  constructor
  · rw [predictRecall_exact_eq_exp]
    exact (Real.exp_pos _).le
  · rw [predictRecall_exact_eq_exp, Real.exp_le_one_iff]
    have hdt : 0 < tnow / prior.t := div_pos htnow ht
    have key := gammaln_increment_mono (b := prior.beta) (x := prior.alpha)
      (y := prior.alpha + tnow / prior.t) hb ha (by linarith)
    have harr : prior.alpha + tnow / prior.t + prior.beta
        = prior.alpha + prior.beta + tnow / prior.t := by ring
    rw [harr] at key
    simp only [predictRecall]
    simp only [Bool.false_eq_true, if_false]
    linarith

/-- Witness for `predictRecall_exact_mem_unit_interval` at `(1, 1, 1)`,
`tnow = 1`. -/
theorem predictRecall_exact_mem_unit_interval_witness :
    0 ≤ predictRecall ⟨1, 1, 1⟩ 1 true none ∧ predictRecall ⟨1, 1, 1⟩ 1 true none ≤ 1 :=
  predictRecall_exact_mem_unit_interval ⟨1, 1, 1⟩ 1
    one_pos one_pos one_pos one_pos

/-- Claim C3: for a fixed valid model, the exact predicted recall is
monotonically decreasing in the elapsed time: `tnow1 < tnow2` implies
`predictRecall(model, tnow2, exact=True) ≤ predictRecall(model, tnow1,
exact=True)`.  This is again the increasing-increments property of
`log Γ` applied at `alpha + dt`. -/
theorem predictRecall_exact_antitone (prior : BetaModel) (tnow1 tnow2 : ℝ)
    (ha : 0 < prior.alpha) (hb : 0 < prior.beta) (ht : 0 < prior.t)
    (ht1 : 0 < tnow1) (h12 : tnow1 < tnow2) :
    predictRecall prior tnow2 true none ≤ predictRecall prior tnow1 true none := by
  rw [predictRecall_exact_eq_exp, predictRecall_exact_eq_exp]
  apply Real.exp_le_exp.mpr
  have hd1 : 0 < tnow1 / prior.t := div_pos ht1 ht
  have hd12 : tnow1 / prior.t ≤ tnow2 / prior.t := (div_le_div_iff_of_pos_right ht).mpr h12.le
  have key := gammaln_increment_mono (b := prior.beta)
    (x := prior.alpha + tnow1 / prior.t) (y := prior.alpha + tnow2 / prior.t)
    hb (by linarith) (by linarith)
  have e1 : prior.alpha + tnow1 / prior.t + prior.beta
      = prior.alpha + prior.beta + tnow1 / prior.t := by ring
  have e2 : prior.alpha + tnow2 / prior.t + prior.beta
      = prior.alpha + prior.beta + tnow2 / prior.t := by ring
  rw [e1, e2] at key
  simp only [predictRecall]
  simp only [Bool.false_eq_true, if_false]
  linarith

/-- Witness for `predictRecall_exact_antitone` at `(1, 1, 1)`,
`tnow1 = 1 < tnow2 = 2`. -/
theorem predictRecall_exact_antitone_witness :
    predictRecall ⟨1, 1, 1⟩ 2 true none ≤ predictRecall ⟨1, 1, 1⟩ 1 true none :=
  predictRecall_exact_antitone ⟨1, 1, 1⟩ 1 2
    one_pos one_pos one_pos one_pos (by norm_num)

/-- Claim C4: `modelToPercentileDecay` inverts `predictRecall`: if the
external root solver returns an exact root of the decay objective, then
`predictRecall(model, modelToPercentileDecay(model, p), exact=True)`
equals `p` — exactly, because the objective's value at the root makes the
log-domain recall equal `log p`, and `exp (log p) = p`. -/
theorem predictRecall_decay_roundtrip (model : BetaModel) (percentile root : ℝ)
    (ha : 0 < model.alpha) (hb : 0 < model.beta) (ht : 0 < model.t)
    (hp0 : 0 < percentile) (hp1 : percentile < 1)
    (hroot : decayRoot model percentile root) :
    predictRecall model (modelToPercentileDecayAt model root) true none = percentile := by
  rw [predictRecall_exact_eq_exp]
  have ht' : model.t ≠ 0 := ne_of_gt ht
  have hdt : modelToPercentileDecayAt model root / model.t = Real.exp root := by
    rw [modelToPercentileDecayAt, mul_div_assoc, div_self ht', mul_one]
  have hkey : predictRecall model (modelToPercentileDecayAt model root) false none
      = Real.log percentile := by
    simp only [predictRecall, hdt]
    have h := hroot
    simp only [decayRoot, decayObjective, betaln] at h
    have e : model.alpha + Real.exp root + model.beta
        = model.alpha + model.beta + Real.exp root := by ring
    rw [e] at h
    simp only [Bool.false_eq_true, if_false]
    linarith
  rw [hkey, Real.exp_log hp0]

/-- Witness for `predictRecall_decay_roundtrip`: for the model `(1, 1, 1)`
and `percentile = 1/2` the decay objective has the exact root `0`, and the
round trip indeed returns `1/2`. -/
theorem predictRecall_decay_roundtrip_witness :
    predictRecall ⟨1, 1, 1⟩ (modelToPercentileDecayAt ⟨1, 1, 1⟩ 0) true none = 1 / 2 := by
  have hroot : decayRoot ⟨1, 1, 1⟩ (1 / 2) 0 := by
    norm_num [decayRoot, decayObjective, betaln, gammaln, Real.exp_zero,
      Real.Gamma_one, Real.Gamma_two, Real.Gamma_ofNat_eq_factorial, Nat.factorial]
    rw [show (1 : ℝ) / 2 = 2⁻¹ by norm_num, Real.log_inv]
    ring
  exact predictRecall_decay_roundtrip ⟨1, 1, 1⟩ (1 / 2) 0
    one_pos one_pos one_pos (by norm_num) (by norm_num) hroot

/-! ## The bracket scan of `modelToPercentileDecay` (claim C6) -/

/-- Postcondition of the upward slide: when it returns a window `(l, h)`,
the loop condition has failed there, and either the window is untouched or
`f l > 0` (it is the previous `f high`, which tested positive). -/
theorem slideUp_post (f : ℝ → ℝ) (fuel : ℕ) :
    ∀ (blow bhigh l h : ℝ), slideUp f fuel blow bhigh = some (l, h) →
      ¬(0 < f l ∧ 0 < f h) ∧ (0 < f l ∨ (l = blow ∧ h = bhigh)) := by
  induction fuel with
  | zero =>
    intro blow bhigh l h hs
    simp [slideUp] at hs
  | succ n ih =>
    intro blow bhigh l h hs
    simp only [slideUp] at hs
    by_cases hc : 0 < f blow ∧ 0 < f bhigh
    · rw [if_pos hc] at hs
      obtain ⟨h1, h2⟩ := ih bhigh (bhigh + 6) l h hs
      refine ⟨h1, Or.inl ?_⟩
      rcases h2 with h2 | ⟨rfl, _⟩
      · exact h2
      · exact hc.2
    · rw [if_neg hc] at hs
      obtain ⟨hl, hh⟩ : blow = l ∧ bhigh = h := by simpa using hs
      subst hl
      subst hh
      exact ⟨hc, Or.inr ⟨rfl, rfl⟩⟩

/-- Postcondition of the downward slide: symmetric to `slideUp_post`. -/
theorem slideDown_post (f : ℝ → ℝ) (fuel : ℕ) :
    ∀ (blow bhigh l h : ℝ), slideDown f fuel blow bhigh = some (l, h) →
      ¬(f l < 0 ∧ f h < 0) ∧ (f h < 0 ∨ (l = blow ∧ h = bhigh)) := by
  induction fuel with
  | zero =>
    intro blow bhigh l h hs
    simp [slideDown] at hs
  | succ n ih =>
    intro blow bhigh l h hs
    simp only [slideDown] at hs
    by_cases hc : f blow < 0 ∧ f bhigh < 0
    · rw [if_pos hc] at hs
      obtain ⟨h1, h2⟩ := ih (blow - 6) blow l h hs
      refine ⟨h1, Or.inl ?_⟩
      rcases h2 with h2 | ⟨_, rfl⟩
      · exact h2
      · exact hc.1
    · rw [if_neg hc] at hs
      obtain ⟨hl, hh⟩ : blow = l ∧ bhigh = h := by simpa using hs
      subst hl
      subst hh
      exact ⟨hc, Or.inr ⟨rfl, rfl⟩⟩

/-- Termination of the upward slide: if `f` is nonpositive at the grid
point `bhigh + 6n`, then fuel `> n` suffices for the loop to exit. -/
theorem slideUp_term (f : ℝ → ℝ) (n : ℕ) :
    ∀ (fuel : ℕ) (blow bhigh : ℝ), n < fuel → f (bhigh + 6 * (n : ℝ)) ≤ 0 →
      ∃ l h, slideUp f fuel blow bhigh = some (l, h) := by
  induction n with
  | zero =>
    intro fuel blow bhigh hlt h0
    obtain ⟨m, rfl⟩ : ∃ m, fuel = m + 1 := ⟨fuel - 1, by omega⟩
    norm_num at h0
    simp only [slideUp]
    rw [if_neg fun hc => absurd h0 (not_le.mpr hc.2)]
    exact ⟨blow, bhigh, rfl⟩
  | succ k ih =>
    intro fuel blow bhigh hlt h0
    obtain ⟨m, rfl⟩ : ∃ m, fuel = m + 1 := ⟨fuel - 1, by omega⟩
    simp only [slideUp]
    by_cases hc : 0 < f blow ∧ 0 < f bhigh
    · rw [if_pos hc]
      have h0' : f (bhigh + 6 + 6 * (k : ℝ)) ≤ 0 := by
        have e : bhigh + 6 + 6 * (k : ℝ) = bhigh + 6 * ((k : ℝ) + 1) := by ring
        rw [e]
        push_cast at h0
        exact h0
      exact ih m bhigh (bhigh + 6) (by omega) h0'
    · rw [if_neg hc]
      exact ⟨blow, bhigh, rfl⟩

/-- Termination of the downward slide: if `f` is nonnegative at the grid
point `blow - 6n`, then fuel `> n` suffices for the loop to exit. -/
theorem slideDown_term (f : ℝ → ℝ) (n : ℕ) :
    ∀ (fuel : ℕ) (blow bhigh : ℝ), n < fuel → 0 ≤ f (blow - 6 * (n : ℝ)) →
      ∃ l h, slideDown f fuel blow bhigh = some (l, h) := by
  induction n with
  | zero =>
    intro fuel blow bhigh hlt h0
    obtain ⟨m, rfl⟩ : ∃ m, fuel = m + 1 := ⟨fuel - 1, by omega⟩
    norm_num at h0
    simp only [slideDown]
    rw [if_neg fun hc => absurd h0 (not_le.mpr hc.1)]
    exact ⟨blow, bhigh, rfl⟩
  | succ k ih =>
    intro fuel blow bhigh hlt h0
    obtain ⟨m, rfl⟩ : ∃ m, fuel = m + 1 := ⟨fuel - 1, by omega⟩
    simp only [slideDown]
    by_cases hc : f blow < 0 ∧ f bhigh < 0
    · rw [if_pos hc]
      have h0' : 0 ≤ f (blow - 6 - 6 * (k : ℝ)) := by
        have e : blow - 6 - 6 * (k : ℝ) = blow - 6 * ((k : ℝ) + 1) := by ring
        rw [e]
        push_cast at h0
        exact h0
      exact ih m (blow - 6) blow (by omega) h0'
    · rw [if_neg hc]
      exact ⟨blow, bhigh, rfl⟩

/-- The decay objective is antitone in `lndelta` (for a valid model): the
expected recall decreases as the normalized elapsed time grows.  Follows
from the increasing increments of `log Γ`. -/
theorem decayObjective_antitone {alpha beta percentile : ℝ} (ha : 0 < alpha)
    (hb : 0 < beta) {x y : ℝ} (hxy : x ≤ y) :
    decayObjective alpha beta percentile y ≤ decayObjective alpha beta percentile x := by
  simp only [decayObjective, betaln]
  have hex : Real.exp x ≤ Real.exp y := Real.exp_le_exp.mpr hxy
  have hexpos := Real.exp_pos x
  have key := gammaln_increment_mono (b := beta) (x := alpha + Real.exp x)
    (y := alpha + Real.exp y) hb (by linarith) (by linarith)
  linarith

/-- The decay objective eventually becomes nonpositive on the upward grid
`3, 9, 15, …` scanned by the first loop: `gammaln (w+β) - gammaln w`
grows at least like `β · log (w-1)`, which dominates the constant
`gammaln (α+β) - gammaln α - log percentile`. -/
theorem decayObjective_eventually_nonpos {alpha beta percentile : ℝ}
    (ha : 0 < alpha) (hb : 0 < beta) (hp : 0 < percentile) :
    ∃ n : ℕ, decayObjective alpha beta percentile (3 + 6 * (n : ℝ)) ≤ 0 := by
  obtain ⟨n, hn⟩ := exists_nat_ge (Real.log (Real.exp
    ((gammaln (alpha + beta) - gammaln alpha - Real.log percentile) / beta) + 1))
  refine ⟨n, ?_⟩
  set T := (gammaln (alpha + beta) - gammaln alpha - Real.log percentile) / beta with hT
  have hTexp := Real.exp_pos T
  have hgrid : Real.exp T + 1 ≤ Real.exp (3 + 6 * (n : ℝ)) := by
    have h2 : (n : ℝ) ≤ 3 + 6 * (n : ℝ) := by
      have := Nat.cast_nonneg (α := ℝ) n
      linarith
    calc Real.exp T + 1 = Real.exp (Real.log (Real.exp T + 1)) := by
          rw [Real.exp_log (by linarith)]
      _ ≤ Real.exp (3 + 6 * (n : ℝ)) := Real.exp_le_exp.mpr (by linarith)
  set w := alpha + Real.exp (3 + 6 * (n : ℝ)) with hw
  have hw1 : 1 < w := by
    rw [hw]
    linarith
  have hlow := gammaln_chord_lower (w := w) hw1 hb
  have hTlog : T ≤ Real.log (w - 1) := by
    have hle : Real.exp T ≤ w - 1 := by
      rw [hw]
      linarith
    calc T = Real.log (Real.exp T) := (Real.log_exp T).symm
      _ ≤ Real.log (w - 1) := Real.log_le_log hTexp hle
  have hchain : gammaln (alpha + beta) - gammaln alpha - Real.log percentile
      ≤ gammaln (w + beta) - gammaln w := by
    have h1 : beta * T = gammaln (alpha + beta) - gammaln alpha - Real.log percentile := by
      rw [hT, mul_comm, div_mul_cancel₀ _ (ne_of_gt hb)]
    have h2 : beta * T ≤ beta * Real.log (w - 1) :=
      mul_le_mul_of_nonneg_left hTlog hb.le
    linarith
  simp only [decayObjective, betaln]
  rw [← hw]
  linarith

/-- The decay objective eventually becomes nonnegative on the downward grid
`-3, -9, -15, …` scanned by the second loop: the increment
`g(α+δ) - g(α)` of `g w = gammaln (w+β) - gammaln w` is `O(δ)` as
`δ = exp lndelta → 0`, while `-log percentile` is a positive constant. -/
theorem decayObjective_eventually_nonneg {alpha beta percentile : ℝ}
    (ha : 0 < alpha) (hb : 0 < beta) (hp0 : 0 < percentile) (hp1 : percentile < 1) :
    ∃ n : ℕ, 0 ≤ decayObjective alpha beta percentile (-3 - 6 * (n : ℝ)) := by
  have hlp : 0 < -Real.log percentile := by
    have := Real.log_neg hp0 hp1
    linarith
  set m := (gammaln alpha - gammaln (alpha / 2)) / (alpha / 2) with hm
  set K := max (Real.log (alpha + beta + 1) - m) 1 with hK
  have hKpos : (0 : ℝ) < K := lt_of_lt_of_le one_pos (le_max_right _ _)
  obtain ⟨n, hn⟩ := exists_nat_one_div_lt
    (ε := min (-Real.log percentile / K) 1) (lt_min (div_pos hlp hKpos) one_pos)
  refine ⟨n, ?_⟩
  set δ := Real.exp (-3 - 6 * (n : ℝ)) with hδ
  have hδpos : (0 : ℝ) < δ := Real.exp_pos _
  have hδsmall : δ ≤ 1 / ((n : ℝ) + 1) := by
    have h1 : δ ≤ Real.exp (-(n : ℝ)) := by
      rw [hδ]
      apply Real.exp_le_exp.mpr
      have := Nat.cast_nonneg (α := ℝ) n
      linarith
    have h3 : (n : ℝ) + 1 ≤ Real.exp (n : ℝ) := Real.add_one_le_exp _
    have h4 : Real.exp (-(n : ℝ)) ≤ 1 / ((n : ℝ) + 1) := by
      rw [Real.exp_neg, inv_eq_one_div]
      exact one_div_le_one_div_of_le (by positivity) h3
    linarith
  have hδ1 : δ ≤ 1 :=
    le_of_lt (lt_of_le_of_lt hδsmall (lt_of_lt_of_le hn (min_le_right _ _)))
  have hδK : δ * K ≤ -Real.log percentile := by
    have h5 : δ < -Real.log percentile / K :=
      lt_of_le_of_lt hδsmall (lt_of_lt_of_le hn (min_le_left _ _))
    calc δ * K ≤ -Real.log percentile / K * K :=
          mul_le_mul_of_nonneg_right h5.le hKpos.le
      _ = -Real.log percentile := div_mul_cancel₀ _ (ne_of_gt hKpos)
  have hup : gammaln (alpha + beta + δ) - gammaln (alpha + beta)
      ≤ δ * Real.log (alpha + beta + 1) := by
    have h := gammaln_chord_upper (w := alpha + beta) (d := δ) (by linarith) hδpos
    have hlog : Real.log (alpha + beta + δ) ≤ Real.log (alpha + beta + 1) :=
      Real.log_le_log (by linarith) (by linarith)
    calc gammaln (alpha + beta + δ) - gammaln (alpha + beta)
        ≤ δ * Real.log (alpha + beta + δ) := h
      _ ≤ δ * Real.log (alpha + beta + 1) :=
          mul_le_mul_of_nonneg_left hlog hδpos.le
  have hdown : δ * m ≤ gammaln (alpha + δ) - gammaln alpha := by
    have h := gammaln_chord_lower_half (w := alpha) (d := δ) ha hδpos
    rw [← hm] at h
    exact h
  have hsplit : δ * (Real.log (alpha + beta + 1) - m)
      = δ * Real.log (alpha + beta + 1) - δ * m := by ring
  have hKmul : δ * (Real.log (alpha + beta + 1) - m) ≤ δ * K :=
    mul_le_mul_of_nonneg_left (le_max_left _ _) hδpos.le
  simp only [decayObjective, betaln]
  rw [← hδ]
  have e : alpha + δ + beta = alpha + beta + δ := by ring
  rw [e]
  linarith

/-- Claim C6 (amended): for every valid model (`alpha, beta, t > 0`) and
every percentile in `(0, 1)`, the bracket scan of
`modelToPercentileDecay` — sliding the fixed-width-6 window from `[-3, 3]`
— terminates (some finite fuel suffices), and the resulting window
satisfies `f(low) ≥ 0` and `f(high) ≤ 0`.  The *strict* inequalities of
the source's assertion can fail — only in the boundary case where a window
endpoint is an exact root of `f` (see the counterexample
`bracketScan_assert_failure`). -/
theorem bracketScan_terminates (alpha beta t percentile : ℝ)
    (ha : 0 < alpha) (hb : 0 < beta) (ht : 0 < t)
    (hp0 : 0 < percentile) (hp1 : percentile < 1) :
    ∃ (fuel : ℕ) (l h : ℝ),
      bracketScan (decayObjective alpha beta percentile) fuel = some (l, h) ∧
      0 ≤ decayObjective alpha beta percentile l ∧
      decayObjective alpha beta percentile h ≤ 0 := by
  obtain ⟨n₁, hn₁⟩ := decayObjective_eventually_nonpos ha hb hp0
  obtain ⟨n₂, hn₂⟩ := decayObjective_eventually_nonneg ha hb hp0 hp1
  set f := decayObjective alpha beta percentile with hf
  set fuel := max n₁ n₂ + 1 with hfuel
  have hanti : f 3 ≤ f (-3) := decayObjective_antitone ha hb (by norm_num)
  obtain ⟨l, h, hl⟩ := slideUp_term f n₁ fuel (-3) 3
    (Nat.lt_succ_of_le (le_max_left _ _)) hn₁
  obtain ⟨hpost1, hpost2⟩ := slideUp_post f fuel (-3) 3 l h hl
  rcases hpost2 with hflpos | ⟨rfl, rfl⟩
  · -- at least one upward iteration ran: `f l > 0` and the loop exited,
    -- so `f h ≤ 0`; the downward loop then exits at once.
    have hfh : f h ≤ 0 := by
      by_contra hcon
      push_neg at hcon
      exact hpost1 ⟨hflpos, hcon⟩
    have hdown : slideDown f fuel l h = some (l, h) := by
      obtain ⟨m, hm⟩ : ∃ m, fuel = m + 1 := ⟨max n₁ n₂, rfl⟩
      rw [hm]
      simp only [slideDown]
      rw [if_neg]
      intro hc
      exact absurd hflpos (not_lt.mpr hc.1.le)
    refine ⟨fuel, l, h, ?_, hflpos.le, hfh⟩
    simp only [bracketScan, hl]
    exact hdown
  · -- the upward loop never ran; run the downward loop from `(-3, 3)`.
    obtain ⟨l', h', hd⟩ := slideDown_term f n₂ fuel (-3) 3
      (Nat.lt_succ_of_le (le_max_right _ _)) hn₂
    obtain ⟨hq1, hq2⟩ := slideDown_post f fuel (-3) 3 l' h' hd
    refine ⟨fuel, l', h', ?_, ?_, ?_⟩
    · simp only [bracketScan, hl]
      exact hd
    · rcases hq2 with hfh | ⟨rfl, rfl⟩
      · by_contra hcon
        push_neg at hcon
        exact hq1 ⟨hcon, hfh⟩
      · by_contra hcon
        push_neg at hcon
        exact hq1 ⟨hcon, lt_of_le_of_lt hanti hcon⟩
    · rcases hq2 with hfh | ⟨rfl, rfl⟩
      · exact hfh.le
      · by_contra hcon
        push_neg at hcon
        exact hpost1 ⟨lt_of_lt_of_le hcon hanti, hcon⟩

/-- Witness for `bracketScan_terminates` at the model `(3, 3, 10)` and
`percentile = 1/2`. -/
theorem bracketScan_terminates_witness :
    ∃ (fuel : ℕ) (l h : ℝ),
      bracketScan (decayObjective 3 3 (1 / 2)) fuel = some (l, h) ∧
      0 ≤ decayObjective 3 3 (1 / 2) l ∧
      decayObjective 3 3 (1 / 2) h ≤ 0 :=
  bracketScan_terminates 3 3 10 (1 / 2)
    (by norm_num) (by norm_num) (by norm_num) (by norm_num) (by norm_num)

/-- Claim C6, counterexample: for the valid model `(1, 1, 1)` and the valid
percentile `1/(1+e³) ∈ (0, 1)` the decay objective vanishes **exactly** at
the initial upper endpoint `+3`.  Both loops exit immediately, returning
the initial window `(-3, 3)`, but the strict assertion
`f(low) > 0 and f(high) < 0` fails because `f(3) = 0`, not `< 0`.  So the
bracket search does not always establish the claimed strict bracket. -/
theorem bracketScan_assert_failure :
    0 < (1 + Real.exp 3)⁻¹ ∧ (1 + Real.exp 3)⁻¹ < 1 ∧
    bracketScan (decayObjective 1 1 (1 + Real.exp 3)⁻¹) 1 = some (-3, 3) ∧
    ¬bracketAssert (decayObjective 1 1 (1 + Real.exp 3)⁻¹) (-3) 3 := by
  have hepos := Real.exp_pos (3 : ℝ)
  have he1 : (1 : ℝ) < Real.exp 3 := by
    have := Real.add_one_le_exp (3 : ℝ)
    linarith
  have hΓ2 : Real.Gamma (1 + 1 : ℝ) = 1 := by
    norm_num [Real.Gamma_two]
  have hzero : decayObjective 1 1 (1 + Real.exp 3)⁻¹ 3 = 0 := by
    simp only [decayObjective, betaln, gammaln]
    rw [Real.log_inv]
    have hstep : Real.Gamma (1 + Real.exp 3 + 1)
        = (1 + Real.exp 3) * Real.Gamma (1 + Real.exp 3) :=
      Real.Gamma_add_one (by linarith)
    rw [hstep, Real.log_mul (by linarith)
      (ne_of_gt (Real.Gamma_pos_of_pos (by linarith))), Real.Gamma_one, hΓ2,
      Real.log_one]
    ring
  have hposlow : 0 < decayObjective 1 1 (1 + Real.exp 3)⁻¹ (-3) := by
    have hem := Real.exp_pos (-3 : ℝ)
    simp only [decayObjective, betaln, gammaln]
    rw [Real.log_inv]
    have hstep : Real.Gamma (1 + Real.exp (-3) + 1)
        = (1 + Real.exp (-3)) * Real.Gamma (1 + Real.exp (-3)) :=
      Real.Gamma_add_one (by linarith)
    rw [hstep, Real.log_mul (by linarith)
      (ne_of_gt (Real.Gamma_pos_of_pos (by linarith))), Real.Gamma_one, hΓ2,
      Real.log_one]
    have hlt : Real.log (1 + Real.exp (-3)) < Real.log (1 + Real.exp 3) := by
      apply Real.log_lt_log (by linarith)
      have := Real.exp_lt_exp.mpr (show (-3 : ℝ) < 3 by norm_num)
      linarith
    linarith
  have hcond1 : ¬(0 < decayObjective 1 1 (1 + Real.exp 3)⁻¹ (-3) ∧
      0 < decayObjective 1 1 (1 + Real.exp 3)⁻¹ 3) := by
    intro hc
    rw [hzero] at hc
    exact lt_irrefl 0 hc.2
  have hcond2 : ¬(decayObjective 1 1 (1 + Real.exp 3)⁻¹ (-3) < 0 ∧
      decayObjective 1 1 (1 + Real.exp 3)⁻¹ 3 < 0) := by
    intro hc
    exact absurd hc.1 (not_lt.mpr hposlow.le)
  have hupstep : slideUp (decayObjective 1 1 (1 + Real.exp 3)⁻¹) 1 (-3) 3
      = some (-3, 3) := by
    simp only [slideUp]
    rw [if_neg hcond1]
  refine ⟨by positivity, ?_, ?_, ?_⟩
  · exact inv_lt_one_of_one_lt₀ (by linarith)
  · simp only [bracketScan, hupstep]
    simp only [slideDown]
    rw [if_neg hcond2]
  · intro hc
    have h2 : decayObjective 1 1 (1 + Real.exp 3)⁻¹ 3 < 0 := hc.2
    rw [hzero] at h2
    exact lt_irrefl 0 h2

end Ebisu
